import Mathlib

/- Shallow embedding of the statistical core of the gappa commands
   `analyze dispersion` and `examine edpl`. Definitions are translated
   from the C++ source; external genesis library helpers that the
   commands call are modelled from the specification where noted. -/

/-! ## Variant enumerator (dispersion.cpp) -/

/-- Edge value representation of a dispersion variant, as in the C++ enum
`DispersionVariant::EdgeValues`. -/
inductive EdgeValues
  | kMasses
  | kImbalances
deriving DecidableEq

/-- Dispersion statistic of a variant, as in the C++ enum
`DispersionVariant::DispersionMethod` (the spelling kCoeffcientOfVariation
follows the source). -/
inductive DispersionMethod
  | kStandardDeviation
  | kVariance
  | kCoeffcientOfVariation
  | kIndexOfDispersion
deriving DecidableEq

/-- One dispersion variant: name, edge value kind, statistic, log scaling,
mirroring the C++ struct `DispersionVariant`. -/
structure DispersionVariant where
  name : String
  edge_values : EdgeValues
  dispersion_method : DispersionMethod
  log_scaling : Bool
deriving DecidableEq

/-- Embedding of `get_variants` from dispersion.cpp: expands the validated
CLI strings for edge values and method into the ordered list of variants. -/
def get_variants (edge_values method : String) : List DispersionVariant :=
  (if edge_values = "both" ∨ edge_values = "masses" then
    (if method = "all" ∨ method = "sd" then
      [⟨"masses_sd", .kMasses, .kStandardDeviation, false⟩] else []) ++
    (if method = "all" ∨ method = "var" then
      [⟨"masses_var", .kMasses, .kVariance, false⟩] else []) ++
    (if method = "all" ∨ method = "cv" then
      [⟨"masses_cv", .kMasses, .kCoeffcientOfVariation, false⟩] else []) ++
    (if method = "all" ∨ method = "vmr" then
      [⟨"masses_vmr", .kMasses, .kIndexOfDispersion, false⟩] else []) ++
    (if method = "all" ∨ method = "sd-log" then
      [⟨"masses_sd_log", .kMasses, .kStandardDeviation, true⟩] else []) ++
    (if method = "all" ∨ method = "var-log" then
      [⟨"masses_var_log", .kMasses, .kVariance, true⟩] else []) ++
    (if method = "all" ∨ method = "cv-log" then
      [⟨"masses_cv_log", .kMasses, .kCoeffcientOfVariation, true⟩] else []) ++
    (if method = "all" ∨ method = "vmr-log" then
      [⟨"masses_vmr_log", .kMasses, .kIndexOfDispersion, true⟩] else [])
  else []) ++
  (if edge_values = "both" ∨ edge_values = "imbalances" then
    (if method = "all" ∨ method = "sd" then
      [⟨"imbalances_sd", .kImbalances, .kStandardDeviation, false⟩] else []) ++
    (if method = "all" ∨ method = "var" then
      [⟨"imbalances_var", .kImbalances, .kVariance, false⟩] else []) ++
    (if method = "all" ∨ method = "sd-log" then
      [⟨"imbalances_sd_log", .kImbalances, .kStandardDeviation, true⟩] else []) ++
    (if method = "all" ∨ method = "var-log" then
      [⟨"imbalances_var_log", .kImbalances, .kVariance, true⟩] else [])
  else [])

/-! ## Log scale color floor (make_dispersion_color_tree in dispersion.cpp) -/

/-- Embedding of the log scaling minimum of `make_dispersion_color_tree`:
for log scaled variants the color normalization minimum is set to 1.0 when
the autoscaled maximum exceeds 1.0 and to max divided by 10e4 (that is,
100000) otherwise. -/
def log_floor (maxv : ℚ) : ℚ :=
  if 1 < maxv then 1 else maxv / 100000

/-- The floor as the specification words it: maximum divided by 10000 in the
low branch. Stated only to compare against the source floor. -/
def spec_log_floor (maxv : ℚ) : ℚ :=
  if 1 < maxv then 1 else maxv / 10000

/-! ## Sample count guard (run_dispersion in dispersion.cpp) -/

/-- The fatal message thrown by `run_dispersion` for at most one sample. -/
def dispersion_error_message : String :=
  "Cannot compute edge dispersion of a single sample, as the method is meant to visualize dispersion (variance) across a set of samples."

/-- Embedding of the entry checks of `run_dispersion`: the run aborts with a
fatal error when the edge value matrix has at most one row, and otherwise
proceeds with the enumerated variants. -/
def runDispersion (edge_values method : String) (profileRows : ℕ) :
    Except String (List DispersionVariant) :=
  if profileRows ≤ 1 then
    Except.error dispersion_error_message
  else
    Except.ok (get_variants edge_values method)

/-! ## Theorems: C1, C2, C6 -/

/-- C1: with edge values `imbalances` no method ever yields a cv or vmr
variant, and edge values `both` with method `all` yields exactly the 8
masses variants followed by the 4 imbalances variants, per kind in the
order sd, var, cv, vmr, sd-log, var-log, cv-log, vmr-log filtered by the
statistics the kind supports. -/
theorem c1_variant_enumeration :
    (∀ method : String,
      ((get_variants "imbalances" method).all
        (fun v => v.dispersion_method == DispersionMethod.kStandardDeviation
          || v.dispersion_method == DispersionMethod.kVariance)) = true)
    ∧ get_variants "both" "all" =
      [ ⟨"masses_sd", .kMasses, .kStandardDeviation, false⟩,
        ⟨"masses_var", .kMasses, .kVariance, false⟩,
        ⟨"masses_cv", .kMasses, .kCoeffcientOfVariation, false⟩,
        ⟨"masses_vmr", .kMasses, .kIndexOfDispersion, false⟩,
        ⟨"masses_sd_log", .kMasses, .kStandardDeviation, true⟩,
        ⟨"masses_var_log", .kMasses, .kVariance, true⟩,
        ⟨"masses_cv_log", .kMasses, .kCoeffcientOfVariation, true⟩,
        ⟨"masses_vmr_log", .kMasses, .kIndexOfDispersion, true⟩,
        ⟨"imbalances_sd", .kImbalances, .kStandardDeviation, false⟩,
        ⟨"imbalances_var", .kImbalances, .kVariance, false⟩,
        ⟨"imbalances_sd_log", .kImbalances, .kStandardDeviation, true⟩,
        ⟨"imbalances_var_log", .kImbalances, .kVariance, true⟩ ] := by
  constructor
  · intro m
    have h1 : ¬ (("imbalances" : String) = "both" ∨ ("imbalances" : String) = "masses") := by
      decide
    have h2 : (("imbalances" : String) = "both" ∨ ("imbalances" : String) = "imbalances") := by
      decide
    simp only [get_variants, if_neg h1, if_pos h2, List.nil_append, List.all_append]
    split_ifs <;> decide
  · decide

/-- C2 counterexample: the source floor divides by 100000 (the literal 10e4),
not by 10000 as the claim states, and at observed maximum 0 the floor is 0,
not strictly positive. -/
theorem c2_floor_counterexample :
    log_floor (1/2) ≠ spec_log_floor (1/2) ∧ ¬ (0 < log_floor 0) := by
  constructor
  · norm_num [log_floor, spec_log_floor]
  · norm_num [log_floor]

/-- C2 amended: for log scaled variants the floor is 1.0 when the observed
maximum exceeds 1.0 and the maximum divided by 100000 otherwise; the floor
is strictly positive whenever the observed maximum is strictly positive. -/
theorem c2_floor_amended (maxv : ℚ) :
    (1 < maxv → log_floor maxv = 1)
    ∧ (maxv ≤ 1 → log_floor maxv = maxv / 100000)
    ∧ (0 < maxv → 0 < log_floor maxv) := by
  refine ⟨fun h => ?_, fun h => ?_, fun h => ?_⟩
  · simp [log_floor, h]
  · simp [log_floor, not_lt.mpr h]
  · by_cases h1 : 1 < maxv
    · simp [log_floor, h1]
    · simp only [log_floor, if_neg h1]
      positivity

/-- C2 amended witness at the maxima 2, one half and zero exclusion. -/
theorem c2_floor_amended_witness :
    log_floor 2 = 1 ∧ log_floor (1/2) = (1/2) / 100000 ∧ 0 < log_floor (1/2) :=
  ⟨(c2_floor_amended 2).1 (by norm_num),
   (c2_floor_amended (1/2)).2.1 (by norm_num),
   (c2_floor_amended (1/2)).2.2 (by norm_num)⟩

/-- C6: run_dispersion raises a fatal error exactly when the ensemble has at
most one sample row, and otherwise proceeds to the variant computations. -/
theorem c6_min_samples (edge_values method : String) (rows : ℕ) :
    (rows ≤ 1 → runDispersion edge_values method rows =
      Except.error dispersion_error_message)
    ∧ (2 ≤ rows → runDispersion edge_values method rows =
      Except.ok (get_variants edge_values method)) := by
  constructor
  · intro h
    simp [runDispersion, h]
  · intro h
    have h1 : ¬ rows ≤ 1 := by omega
    simp [runDispersion, h1]

/-- C6 witness: one sample aborts, two samples proceed. -/
theorem c6_min_samples_witness :
    runDispersion "both" "all" 1 = Except.error dispersion_error_message
    ∧ runDispersion "both" "all" 2 = Except.ok (get_variants "both" "all") :=
  ⟨(c6_min_samples "both" "all" 1).1 (by decide),
   (c6_min_samples "both" "all" 2).2 (by decide)⟩

/-! ## EDPL reducer model (run_edpl in edpl.cpp)

The external genesis pieces are kept at the interface: a sample stores the
EDPL value that the external metric returns for each placed query, the
reference tree is an identifier, and tree compatibility is a parameter
mirroring `compatible_trees`. -/

/-- One name attached to a placed query with its multiplicity. -/
structure PqueryName where
  pname : String
  multiplicity : ℚ
deriving DecidableEq

/-- A placed query: its names and the EDPL value the external metric
`edpl( pquery, node_distances )` yields for it. -/
structure Pquery where
  names : List PqueryName
  edplVal : ℚ
deriving DecidableEq

/-- One sample file: its reference tree identifier and its placed queries. -/
structure Sample where
  tree : ℕ
  pqueries : List Pquery
deriving DecidableEq

/-- The C++ helper struct NameEdpl of run_edpl: one output record. -/
structure NameEdpl where
  name : String
  mult : ℚ
  edpl : ℚ
deriving DecidableEq

/-- Modelled from the spec: genesis total_multiplicity, the total
multiplicity of a placed query, the sum over its associated names. -/
def totalMultiplicity (pq : Pquery) : ℚ :=
  (pq.names.map (fun n => n.multiplicity)).sum

/-- Records emitted for one placed query, mirroring the body of the pquery
loop in run_edpl: with no_list_file one unnamed record with the total
multiplicity, otherwise one record per associated name. -/
def recordsOf (noList : Bool) (pq : Pquery) : List NameEdpl :=
  if noList then [⟨"", totalMultiplicity pq, pq.edplVal⟩]
  else pq.names.map (fun n => ⟨n.pname, n.multiplicity, pq.edplVal⟩)

/-- Per sample record list, mirroring the push_back loop of run_edpl. -/
def processSample (noList : Bool) (s : Sample) : List NameEdpl :=
  s.pqueries.foldl (fun acc pq => acc ++ recordsOf noList pq) []

/-- The fatal message thrown by run_edpl for differing reference trees. -/
def edpl_tree_error_message : String :=
  "Input jplace files have differing reference trees."

/-- Compatibility check of every further sample against the established
reference tree, mirroring the critical section of run_edpl. -/
def checkTreesFrom (compat : ℕ → ℕ → Bool) (t : ℕ) : List Sample → Except String Unit
  | [] => Except.ok ()
  | s :: rest =>
    if compat t s.tree then checkTreesFrom compat t rest
    else Except.error edpl_tree_error_message

/-- The reference tree is established from the first sample, all others are
checked against it. -/
def treeCheck (compat : ℕ → ℕ → Bool) : List Sample → Except String Unit
  | [] => Except.ok ()
  | s :: rest => checkTreesFrom compat s.tree rest

/-- Boolean form of the tree compatibility of a whole ensemble. -/
def treesOk (compat : ℕ → ℕ → Bool) : List Sample → Bool
  | [] => true
  | s :: rest => rest.all (fun x => compat s.tree x.tree)

/-- EDPL values of the placed queries of one sample. -/
def sampleVals (s : Sample) : List ℚ :=
  s.pqueries.map (fun pq => pq.edplVal)

/-- EDPL values of all placed queries of the ensemble. -/
def allVals (samples : List Sample) : List ℚ :=
  (samples.map sampleVals).flatten

/-- One update of the running maximum, mirroring
max_edpl = std::max( max_edpl, edplv ) with none standing for the initial
negative infinity. -/
def maxStep : Option ℚ → ℚ → Option ℚ
  | none, v => some v
  | some m, v => some (max m v)

/-- The running maximum over all EDPL values. -/
def maxOpt (vals : List ℚ) : Option ℚ :=
  vals.foldl maxStep none

/-- The degenerate maximum fixup of run_edpl: a non finite (never updated)
or exactly zero maximum is replaced by 1.0 together with a warning; the
Bool records that the warning was emitted. -/
def fixupMax : Option ℚ → ℚ × Bool
  | none => (1, true)
  | some q => if q = 0 then (1, true) else (q, false)

/-- The histogram upper bound: the observed (fixed up) maximum is used only
when the user supplied bound is strictly negative. -/
def histUpper (userMax fixedMax : ℚ) : ℚ :=
  if userMax < 0 then fixedMax else userMax

/-- Modelled from the spec: genesis Histogram bin selection over equal width
bins on the range lo to hi, left inclusive and right exclusive with the
final bin closed; out of range values select no bin. -/
def binIndexOf (bins : ℕ) (lo hi v : ℚ) : Option ℕ :=
  if bins = 0 ∨ hi ≤ lo then none
  else if v < lo ∨ hi < v then none
  else some (min (Nat.floor ((v - lo) * bins / (hi - lo))) (bins - 1))

/-- Modelled from the spec: histogram accumulation, the weight collected in
bin i from the weighted observations. -/
def histWeights (bins : ℕ) (lo hi : ℚ) (obs : List (ℚ × ℚ)) : ℕ → ℚ :=
  fun i => ((obs.filter (fun o => binIndexOf bins lo hi o.1 == some i)).map (fun o => o.2)).sum

/-- The weighted observations fed to the histogram: EDPL value and
multiplicity of every record. -/
def obsOf (records : List (List NameEdpl)) : List (ℚ × ℚ) :=
  records.flatten.map (fun r => (r.edpl, r.mult))

/-- Total weight of all emitted records. -/
def totalWeight (records : List (List NameEdpl)) : ℚ :=
  (records.flatten.map (fun r => r.mult)).sum

/-- Result of a successful run of run_edpl: the per sample record lists in
file order, whether the degenerate maximum warning fired, the histogram
upper bound, and the histogram bin weights. -/
structure EdplResult where
  records : List (List NameEdpl)
  degenerateWarned : Bool
  histMax : ℚ
  hist : ℕ → ℚ

/-- Embedding of run_edpl, serializing the OpenMP loop in file order: check
all reference trees against the first sample, collect the records per
sample, track the running maximum, fix it up when degenerate, choose the
histogram bound and accumulate the histogram. -/
def runEdpl (compat : ℕ → ℕ → Bool) (samples : List Sample) (noList : Bool)
    (userMax : ℚ) (bins : ℕ) : Except String EdplResult :=
  match treeCheck compat samples with
  | Except.error e => Except.error e
  | Except.ok _ =>
    let records := samples.map (processSample noList)
    let fm := fixupMax (maxOpt (allVals samples))
    let hm := histUpper userMax fm.1
    Except.ok ⟨records, fm.2, hm, histWeights bins 0 hm (obsOf records)⟩

/-! ## Helper lemmas for the EDPL model -/

theorem foldl_append_records (noList : Bool) (l : List Pquery) :
    ∀ acc : List NameEdpl,
      l.foldl (fun a pq => a ++ recordsOf noList pq) acc
        = acc ++ (l.map (recordsOf noList)).flatten := by
  induction l with
  | nil => intro acc; simp
  | cons pq rest ih =>
    intro acc
    simp only [List.foldl_cons, List.map_cons, List.flatten_cons, ih, List.append_assoc]

theorem processSample_eq (noList : Bool) (s : Sample) :
    processSample noList s = (s.pqueries.map (recordsOf noList)).flatten := by
  simpa [processSample] using foldl_append_records noList s.pqueries []

theorem flatten_map_singleton {α β : Type} (f : α → β) (l : List α) :
    (l.map (fun x => [f x])).flatten = l.map f := by
  induction l with
  | nil => rfl
  | cons x xs ih => simp [ih]

theorem checkTreesFrom_ok_iff (compat : ℕ → ℕ → Bool) (t : ℕ) (l : List Sample) :
    checkTreesFrom compat t l = Except.ok () ↔ ∀ s ∈ l, compat t s.tree = true := by
  induction l with
  | nil => simp [checkTreesFrom]
  | cons s rest ih =>
    by_cases h : compat t s.tree = true
    · simp [checkTreesFrom, h, ih]
    · simp [checkTreesFrom, h]

theorem checkTreesFrom_error_of_mem (compat : ℕ → ℕ → Bool) (t : ℕ)
    (l : List Sample) (hx : ∃ s ∈ l, compat t s.tree = false) :
    checkTreesFrom compat t l = Except.error edpl_tree_error_message := by
  induction l with
  | nil => simp at hx
  | cons s rest ih =>
    by_cases h : compat t s.tree = true
    · have hrest : ∃ x ∈ rest, compat t x.tree = false := by
        rcases hx with ⟨x, hmem, hfalse⟩
        rcases List.mem_cons.mp hmem with rfl | hmem2
        · rw [h] at hfalse; cases hfalse
        · exact ⟨x, hmem2, hfalse⟩
      simp [checkTreesFrom, h, ih hrest]
    · simp [checkTreesFrom, h]

theorem treeCheck_ok_of_treesOk (compat : ℕ → ℕ → Bool) (samples : List Sample)
    (ht : treesOk compat samples = true) :
    treeCheck compat samples = Except.ok () := by
  cases samples with
  | nil => rfl
  | cons s rest =>
    simp only [treesOk, List.all_eq_true] at ht
    exact (checkTreesFrom_ok_iff compat s.tree rest).mpr ht

theorem foldl_maxStep_some (l : List ℚ) :
    ∀ a : ℚ, ∃ m, l.foldl maxStep (some a) = some m ∧ a ≤ m ∧ ∀ v ∈ l, v ≤ m := by
  induction l with
  | nil => intro a; exact ⟨a, rfl, le_refl a, by simp⟩
  | cons x xs ih =>
    intro a
    obtain ⟨m, hfold, hle, hall⟩ := ih (max a x)
    refine ⟨m, ?_, le_trans (le_max_left a x) hle, ?_⟩
    · simpa [maxStep] using hfold
    · intro v hv
      rcases List.mem_cons.mp hv with rfl | hv2
      · exact le_trans (le_max_right a v) hle
      · exact hall v hv2

theorem maxOpt_eq_none (vals : List ℚ) (h : maxOpt vals = none) : vals = [] := by
  cases vals with
  | nil => rfl
  | cons v vs =>
    exfalso
    obtain ⟨m, hfold, _, _⟩ := foldl_maxStep_some vs v
    rw [maxOpt, List.foldl_cons] at h
    simp only [maxStep] at h
    rw [hfold] at h
    cases h

theorem maxOpt_le (vals : List ℚ) (m : ℚ) (h : maxOpt vals = some m) :
    ∀ v ∈ vals, v ≤ m := by
  cases vals with
  | nil => simp
  | cons x xs =>
    obtain ⟨m2, hfold, hle, hall⟩ := foldl_maxStep_some xs x
    rw [maxOpt, List.foldl_cons] at h
    simp only [maxStep] at h
    rw [hfold] at h
    cases h
    intro v hv
    rcases List.mem_cons.mp hv with rfl | hv2
    · exact hle
    · exact hall v hv2

theorem recordsOf_true (pq : Pquery) :
    recordsOf true pq = [⟨"", totalMultiplicity pq, pq.edplVal⟩] := rfl

theorem recordsOf_false (pq : Pquery) :
    recordsOf false pq
      = pq.names.map (fun n => ⟨n.pname, n.multiplicity, pq.edplVal⟩) := rfl

theorem runEdpl_ok (compat : ℕ → ℕ → Bool) (samples : List Sample) (noList : Bool)
    (userMax : ℚ) (bins : ℕ) (h : treeCheck compat samples = Except.ok ()) :
    runEdpl compat samples noList userMax bins =
      Except.ok ⟨samples.map (processSample noList),
        (fixupMax (maxOpt (allVals samples))).2,
        histUpper userMax (fixupMax (maxOpt (allVals samples))).1,
        histWeights bins 0 (histUpper userMax (fixupMax (maxOpt (allVals samples))).1)
          (obsOf (samples.map (processSample noList)))⟩ := by
  unfold runEdpl
  rw [h]

theorem mem_recordsOf_edpl (noList : Bool) (pq : Pquery) (r : NameEdpl)
    (h : r ∈ recordsOf noList pq) : r.edpl = pq.edplVal := by
  cases noList with
  | true =>
    rw [recordsOf_true, List.mem_singleton] at h
    rw [h]
  | false =>
    rw [recordsOf_false, List.mem_map] at h
    obtain ⟨n, _, hn⟩ := h
    rw [← hn]

theorem mem_processSample_edpl (noList : Bool) (s : Sample) (r : NameEdpl)
    (h : r ∈ processSample noList s) : ∃ pq ∈ s.pqueries, r.edpl = pq.edplVal := by
  rw [processSample_eq, List.mem_flatten] at h
  obtain ⟨l, hl, hr⟩ := h
  rw [List.mem_map] at hl
  obtain ⟨pq, hpq, hlpq⟩ := hl
  exact ⟨pq, hpq, mem_recordsOf_edpl noList pq r (hlpq ▸ hr)⟩

theorem edplVal_mem_allVals (samples : List Sample) (s : Sample) (pq : Pquery)
    (hs : s ∈ samples) (hpq : pq ∈ s.pqueries) : pq.edplVal ∈ allVals samples := by
  rw [allVals, List.mem_flatten]
  exact ⟨sampleVals s, List.mem_map_of_mem sampleVals hs,
    List.mem_map_of_mem (fun pq => pq.edplVal) hpq⟩

theorem binIndexOf_zero (bins : ℕ) (hb : 1 ≤ bins) : binIndexOf bins 0 1 0 = some 0 := by
  have h0 : ¬ (bins = 0 ∨ (1:ℚ) ≤ 0) := by
    push_neg
    exact ⟨by omega, by norm_num⟩
  have h1 : ¬ ((0:ℚ) < 0 ∨ (1:ℚ) < 0) := by
    push_neg
    constructor <;> norm_num
  simp only [binIndexOf, if_neg h0, if_neg h1]
  norm_num

theorem hist_bin_zero (bins : ℕ) (hb : 1 ≤ bins) (obs : List (ℚ × ℚ))
    (hz : ∀ o ∈ obs, o.1 = 0) :
    histWeights bins 0 1 obs 0 = (obs.map (fun o => o.2)).sum
    ∧ ∀ i, i ≠ 0 → histWeights bins 0 1 obs i = 0 := by
  constructor
  · unfold histWeights
    rw [List.filter_eq_self.mpr ?_]
    intro o ho
    rw [hz o ho, binIndexOf_zero bins hb]
    simp
  · intro i hi
    unfold histWeights
    rw [List.filter_eq_nil_iff.mpr ?_]
    · rfl
    · intro o ho
      rw [hz o ho, binIndexOf_zero bins hb]
      simp [Ne.symm hi]

theorem obs_fst_mem_allVals (noList : Bool) (samples : List Sample) :
    ∀ o ∈ obsOf (samples.map (processSample noList)), o.1 ∈ allVals samples := by
  intro o ho
  unfold obsOf at ho
  rw [List.mem_map] at ho
  obtain ⟨r, hr, hro⟩ := ho
  rw [List.mem_flatten] at hr
  obtain ⟨l, hl, hrl⟩ := hr
  rw [List.mem_map] at hl
  obtain ⟨s, hs, hls⟩ := hl
  obtain ⟨pq, hpq, he⟩ := mem_processSample_edpl noList s r (hls ▸ hrl)
  rw [← hro]
  exact he ▸ edplVal_mem_allVals samples s pq hs hpq

theorem obs_snd_sum (records : List (List NameEdpl)) :
    ((obsOf records).map (fun o => o.2)).sum = totalWeight records := by
  unfold obsOf totalWeight
  rw [List.map_map]
  rfl

/-! ## Theorems: C3, C4, C5, C10 -/

/-- C3: per placed query the EDPL value is shared by all its records; with
name tracking enabled (list file requested, noList false) one record per
associated name carrying that name multiplicity, so the record count is the
sum of the name counts; with name tracking disabled (noList true) exactly
one unnamed record per query carrying the total multiplicity, so the record
count is the query count. -/
theorem c3_record_emission (s : Sample) :
    processSample true s
      = s.pqueries.map (fun pq => ⟨"", totalMultiplicity pq, pq.edplVal⟩)
    ∧ processSample false s
      = (s.pqueries.map
          (fun pq => pq.names.map (fun n => ⟨n.pname, n.multiplicity, pq.edplVal⟩))).flatten
    ∧ (processSample true s).length = s.pqueries.length
    ∧ (processSample false s).length = (s.pqueries.map (fun pq => pq.names.length)).sum := by
  have h1 : processSample true s
      = s.pqueries.map (fun pq => (⟨"", totalMultiplicity pq, pq.edplVal⟩ : NameEdpl)) := by
    have hmap : s.pqueries.map (recordsOf true)
        = s.pqueries.map (fun pq => [(⟨"", totalMultiplicity pq, pq.edplVal⟩ : NameEdpl)]) :=
      List.map_congr_left (fun pq _ => recordsOf_true pq)
    rw [processSample_eq, hmap]
    exact flatten_map_singleton _ s.pqueries
  have h2 : processSample false s
      = (s.pqueries.map
          (fun pq => pq.names.map (fun n => (⟨n.pname, n.multiplicity, pq.edplVal⟩ : NameEdpl)))).flatten := by
    have hmap : s.pqueries.map (recordsOf false)
        = s.pqueries.map
          (fun pq => pq.names.map (fun n => (⟨n.pname, n.multiplicity, pq.edplVal⟩ : NameEdpl))) :=
      List.map_congr_left (fun pq _ => recordsOf_false pq)
    rw [processSample_eq, hmap]
  refine ⟨h1, h2, ?_, ?_⟩
  · rw [h1, List.length_map]
  · rw [h2, List.length_flatten, List.map_map]
    congr 1
    apply List.map_congr_left
    intro pq _
    simp

/-- C5: the reference tree is established from the first sample and every
further sample is checked against it; any incompatible sample aborts the
whole run with the fatal tree error (so no output is produced), while a
fully compatible ensemble succeeds with the per sample records in file
order. -/
theorem c5_tree_compat (compat : ℕ → ℕ → Bool) (s0 : Sample) (rest : List Sample)
    (noList : Bool) (userMax : ℚ) (bins : ℕ) :
    ((∃ s ∈ rest, compat s0.tree s.tree = false) →
      runEdpl compat (s0 :: rest) noList userMax bins
        = Except.error edpl_tree_error_message)
    ∧ ((∀ s ∈ rest, compat s0.tree s.tree = true) →
      ∃ r, runEdpl compat (s0 :: rest) noList userMax bins = Except.ok r
        ∧ r.records = (s0 :: rest).map (processSample noList)) := by
  constructor
  · intro hx
    have herr := checkTreesFrom_error_of_mem compat s0.tree rest hx
    simp [runEdpl, treeCheck, herr]
  · intro hall
    have hok : treeCheck compat (s0 :: rest) = Except.ok () :=
      (checkTreesFrom_ok_iff compat s0.tree rest).mpr hall
    exact ⟨_, runEdpl_ok compat (s0 :: rest) noList userMax bins hok, rfl⟩

/-- C5 witness: a two sample ensemble with differing trees aborts, and a two
sample ensemble with equal trees succeeds in file order. -/
theorem c5_tree_compat_witness :
    runEdpl (fun a b => a == b) (⟨0, []⟩ :: [⟨1, []⟩]) false (-1) 4
      = Except.error edpl_tree_error_message
    ∧ ∃ r, runEdpl (fun a b => a == b) (⟨0, []⟩ :: [⟨0, []⟩]) false (-1) 4 = Except.ok r
        ∧ r.records = ((⟨0, []⟩ : Sample) :: [⟨0, []⟩]).map (processSample false) :=
  ⟨(c5_tree_compat (fun a b => a == b) ⟨0, []⟩ [⟨1, []⟩] false (-1) 4).1
      (by exact ⟨⟨1, []⟩, by simp, by decide⟩),
   (c5_tree_compat (fun a b => a == b) ⟨0, []⟩ [⟨0, []⟩] false (-1) 4).2
      (by intro s hs; simp at hs; subst hs; decide)⟩

/-- C4: with the default negative histogram bound, a never updated (zero
samples, the model of the non finite initial maximum) or exactly zero
observed maximum makes run_edpl emit the warning, substitute 1.0 as the
histogram upper bound, continue to a successful result, and put all
accumulated weight into the first bin. -/
theorem c4_degenerate_max (compat : ℕ → ℕ → Bool) (samples : List Sample)
    (noList : Bool) (userMax : ℚ) (bins : ℕ)
    (hb : 1 ≤ bins) (hu : userMax < 0)
    (hv : ∀ v ∈ allVals samples, 0 ≤ v)
    (hm : maxOpt (allVals samples) = none ∨ maxOpt (allVals samples) = some 0)
    (ht : treesOk compat samples = true) :
    ∃ r, runEdpl compat samples noList userMax bins = Except.ok r
      ∧ r.degenerateWarned = true ∧ r.histMax = 1
      ∧ r.hist 0 = totalWeight r.records ∧ ∀ i, i ≠ 0 → r.hist i = 0 := by
  have h1 := treeCheck_ok_of_treesOk compat samples ht
  have hfix : fixupMax (maxOpt (allVals samples)) = (1, true) := by
    rcases hm with h | h
    · rw [h]
      rfl
    · rw [h]
      simp [fixupMax]
  have hupper : histUpper userMax (fixupMax (maxOpt (allVals samples))).1 = 1 := by
    rw [hfix]
    simp [histUpper, hu]
  have hzero : ∀ o ∈ obsOf (samples.map (processSample noList)), o.1 = 0 := by
    intro o ho
    have hmem := obs_fst_mem_allVals noList samples o ho
    rcases hm with h | h
    · rw [maxOpt_eq_none (allVals samples) h] at hmem
      cases hmem
    · exact le_antisymm (maxOpt_le (allVals samples) 0 h o.1 hmem) (hv o.1 hmem)
  refine ⟨_, runEdpl_ok compat samples noList userMax bins h1, ?_, ?_, ?_, ?_⟩
  · rw [hfix]
  · exact hupper
  · show histWeights bins 0 (histUpper userMax (fixupMax (maxOpt (allVals samples))).1)
        (obsOf (samples.map (processSample noList))) 0
      = totalWeight (samples.map (processSample noList))
    rw [hupper,
      (hist_bin_zero bins hb (obsOf (samples.map (processSample noList))) hzero).1,
      obs_snd_sum]
  · intro i hi
    show histWeights bins 0 (histUpper userMax (fixupMax (maxOpt (allVals samples))).1)
        (obsOf (samples.map (processSample noList))) i = 0
    rw [hupper]
    exact (hist_bin_zero bins hb (obsOf (samples.map (processSample noList))) hzero).2 i hi

/-- C4 witness: one sample with one query of EDPL 0 under the default bound
minus one and four bins. -/
theorem c4_degenerate_max_witness :
    ∃ r, runEdpl (fun a b => a == b) [⟨0, [⟨[⟨"a", 2⟩], 0⟩]⟩] false (-1) 4 = Except.ok r
      ∧ r.degenerateWarned = true ∧ r.histMax = 1
      ∧ r.hist 0 = totalWeight r.records ∧ ∀ i, i ≠ 0 → r.hist i = 0 :=
  c4_degenerate_max (fun a b => a == b) [⟨0, [⟨[⟨"a", 2⟩], 0⟩]⟩] false (-1) 4
    (by norm_num) (by norm_num)
    (by intro v hv; simp [allVals, sampleVals] at hv; simp [hv])
    (Or.inr rfl) rfl

/-- C10: the observed maximum fallback is taken only for strictly negative
user bounds; a user bound of exactly zero is used as is, producing a
degenerate zero width histogram range that collects no weight in any bin. -/
theorem c10_user_zero_bound :
    (∀ u f : ℚ, 0 ≤ u → histUpper u f = u)
    ∧ (∀ (compat : ℕ → ℕ → Bool) (samples : List Sample) (noList : Bool) (bins : ℕ),
        treesOk compat samples = true →
        ∃ r, runEdpl compat samples noList 0 bins = Except.ok r
          ∧ r.histMax = 0 ∧ ∀ i, r.hist i = 0) := by
  constructor
  · intro u f hu
    simp [histUpper, not_lt.mpr hu]
  · intro compat samples noList bins ht
    have h1 := treeCheck_ok_of_treesOk compat samples ht
    have hupper : histUpper 0 (fixupMax (maxOpt (allVals samples))).1 = 0 := by
      simp [histUpper]
    refine ⟨_, runEdpl_ok compat samples noList 0 bins h1, hupper, ?_⟩
    intro i
    show histWeights bins 0 (histUpper 0 (fixupMax (maxOpt (allVals samples))).1)
        (obsOf (samples.map (processSample noList))) i = 0
    rw [hupper]
    unfold histWeights
    rw [List.filter_eq_nil_iff.mpr ?_]
    · rfl
    · intro o ho
      have hnone : binIndexOf bins 0 0 o.1 = none := by
        simp [binIndexOf]
      rw [hnone]
      simp

/-- C10 witness: user bound zero with an observed maximum of five is kept as
the histogram bound, which stays zero width. -/
theorem c10_user_zero_bound_witness :
    histUpper 0 7 = 0
    ∧ ∃ r, runEdpl (fun a b => a == b) [⟨0, [⟨[⟨"a", 1⟩], 5⟩]⟩] false 0 4 = Except.ok r
        ∧ r.histMax = 0 ∧ ∀ i, r.hist i = 0 :=
  ⟨c10_user_zero_bound.1 0 7 (by norm_num),
   c10_user_zero_bound.2 (fun a b => a == b) [⟨0, [⟨[⟨"a", 1⟩], 5⟩]⟩] false 4 rfl⟩

/-! ## Dispersion reducer over the reals (run_with_matrix in dispersion.cpp)

The per edge statistics involve a square root, so this part of the
embedding lives in the real numbers. -/

/-- Dense edge value matrix: rows are samples, columns are tree edges. -/
structure MatR where
  rows : ℕ
  cols : ℕ
  val : ℕ → ℕ → ℝ

/-- Column c of the matrix, listed over the rows. -/
noncomputable def colList (M : MatR) (c : ℕ) : List ℝ :=
  (List.range M.rows).map (fun r => M.val r c)

/-- Per edge mean and standard deviation, mirroring genesis MeanStddevPair. -/
structure MeanStddevPair where
  mean : ℝ
  stddev : ℝ

/-- Modelled from the spec: genesis mean_stddev, the arithmetic mean and the
population standard deviation of a range of values. -/
noncomputable def mean_stddev (xs : List ℝ) : MeanStddevPair :=
  ⟨xs.sum / xs.length,
   Real.sqrt ((xs.map (fun x => (x - xs.sum / xs.length) ^ 2)).sum / xs.length)⟩

/-- Embedding of the matrix_col_mean_stddev lambda of run_with_matrix: the
result is initialized with zero pairs for every column, returned untouched
for a matrix with zero rows, and otherwise filled per column from
mean_stddev. -/
noncomputable def matrix_col_mean_stddev (M : MatR) : List MeanStddevPair :=
  if M.rows = 0 then List.replicate M.cols ⟨0, 0⟩
  else (List.range M.cols).map (fun c => mean_stddev (colList M c))

/-- Value of a double division that may hit a zero denominator, as the
hardware produces it: NaN for zero over zero, a signed infinity for a
nonzero numerator over zero, an ordinary real otherwise. -/
inductive FVal
  | nan
  | inf
  | ninf
  | num (x : ℝ)

/-- IEEE style division used for the derived coefficient vectors. -/
noncomputable def fdiv (a b : ℝ) : FVal :=
  if b = 0 then (if a = 0 then FVal.nan else if 0 < a then FVal.inf else FVal.ninf)
  else FVal.num (a / b)

/-- The sd vector of run_with_matrix. -/
noncomputable def sd_vec (M : MatR) : List ℝ :=
  (matrix_col_mean_stddev M).map (fun p => p.stddev)

/-- The variance vector of run_with_matrix: stddev times stddev. -/
noncomputable def var_vec (M : MatR) : List ℝ :=
  (matrix_col_mean_stddev M).map (fun p => p.stddev * p.stddev)

/-- The coefficient of variation vector: stddev over mean. -/
noncomputable def cv_vec (M : MatR) : List FVal :=
  (matrix_col_mean_stddev M).map (fun p => fdiv p.stddev p.mean)

/-- The index of dispersion vector: stddev times stddev over mean. -/
noncomputable def vmr_vec (M : MatR) : List FVal :=
  (matrix_col_mean_stddev M).map (fun p => fdiv (p.stddev * p.stddev) p.mean)

/-- C7: the column wise mean and stddev step returns the zero pair for
every column of a matrix with zero rows without failing, and for a matrix
with at least one row it returns per column the brute force mean and
population standard deviation of that column. -/
theorem c7_col_mean_stddev (M : MatR) :
    (M.rows = 0 → matrix_col_mean_stddev M = List.replicate M.cols ⟨0, 0⟩)
    ∧ (1 ≤ M.rows → ∀ c, c < M.cols →
      (matrix_col_mean_stddev M)[c]? =
        some ⟨(colList M c).sum / M.rows,
          Real.sqrt (((colList M c).map
            (fun x => (x - (colList M c).sum / M.rows) ^ 2)).sum / M.rows)⟩) := by
  constructor
  · intro h
    simp [matrix_col_mean_stddev, h]
  · intro h c hc
    have hr : ¬ M.rows = 0 := by omega
    have hlen : (((colList M c).length : ℕ) : ℝ) = (M.rows : ℝ) := by
      simp [colList]
    have hms : mean_stddev (colList M c)
        = ⟨(colList M c).sum / M.rows,
          Real.sqrt (((colList M c).map
            (fun x => (x - (colList M c).sum / M.rows) ^ 2)).sum / M.rows)⟩ := by
      unfold mean_stddev
      rw [hlen]
    simp only [matrix_col_mean_stddev, if_neg hr]
    rw [List.getElem?_map, List.getElem?_range hc, Option.map_some', hms]

/-- Zero row example matrix with three columns. -/
noncomputable def matZeroRows : MatR := ⟨0, 3, fun _ _ => 0⟩

/-- Two row one column example matrix with entries 2 and 4. -/
noncomputable def matTwoRows : MatR := ⟨2, 1, fun r _ => if r = 0 then 2 else 4⟩

/-- Two row one column example matrix with all entries zero. -/
noncomputable def matTwoZeros : MatR := ⟨2, 1, fun _ _ => 0⟩

/-- C7 witness: the zero row matrix yields zero pairs, and the 2 by 1
matrix yields the brute force column statistics. -/
theorem c7_col_mean_stddev_witness :
    matrix_col_mean_stddev matZeroRows = List.replicate matZeroRows.cols ⟨0, 0⟩
    ∧ (matrix_col_mean_stddev matTwoRows)[0]? =
        some ⟨(colList matTwoRows 0).sum / matTwoRows.rows,
          Real.sqrt (((colList matTwoRows 0).map
            (fun x => (x - (colList matTwoRows 0).sum / matTwoRows.rows) ^ 2)).sum
              / matTwoRows.rows)⟩ :=
  ⟨(c7_col_mean_stddev matZeroRows).1 rfl,
   (c7_col_mean_stddev matTwoRows).2 (by norm_num [matTwoRows]) 0 (by norm_num [matTwoRows])⟩

/-- C8: per edge the index of dispersion is the variance divided by the
mean with variance the squared stddev, a zero mean yields the IEEE NaN or
infinity which is propagated as a value, and the derivation is total, one
output per column for every input matrix. -/
theorem c8_index_of_dispersion (M : MatR) :
    var_vec M = (sd_vec M).map (fun s => s * s)
    ∧ (∀ (i : ℕ) (p : MeanStddevPair), (matrix_col_mean_stddev M)[i]? = some p →
        (vmr_vec M)[i]? = some (fdiv (p.stddev * p.stddev) p.mean))
    ∧ (∀ (i : ℕ) (p : MeanStddevPair), (matrix_col_mean_stddev M)[i]? = some p → p.mean = 0 →
        (vmr_vec M)[i]? = some FVal.nan ∨ (vmr_vec M)[i]? = some FVal.inf)
    ∧ (vmr_vec M).length = M.cols := by
  have h2 : ∀ (i : ℕ) (p : MeanStddevPair), (matrix_col_mean_stddev M)[i]? = some p →
      (vmr_vec M)[i]? = some (fdiv (p.stddev * p.stddev) p.mean) := by
    intro i p h
    unfold vmr_vec
    rw [List.getElem?_map, h, Option.map_some']
  refine ⟨?_, h2, ?_, ?_⟩
  · unfold var_vec sd_vec
    rw [List.map_map]
    rfl
  · intro i p h hm
    have hv := h2 i p h
    rcases eq_or_lt_of_le (mul_self_nonneg p.stddev) with hs | hs
    · left
      rw [hv]
      simp [fdiv, hm, ← hs]
    · right
      rw [hv]
      simp [fdiv, hm, hs, ne_of_gt hs]
  · unfold vmr_vec
    rw [List.length_map]
    unfold matrix_col_mean_stddev
    split_ifs <;> simp

/-- C8 witness: the all zero 2 by 1 matrix has a zero mean column, so its
index of dispersion is the NaN or infinity special value. -/
theorem c8_index_of_dispersion_witness :
    (vmr_vec matTwoZeros)[0]? = some FVal.nan
    ∨ (vmr_vec matTwoZeros)[0]? = some FVal.inf :=
  (c8_index_of_dispersion matTwoZeros).2.2.1 0 (mean_stddev (colList matTwoZeros 0))
    (by simp [matrix_col_mean_stddev, matTwoZeros, List.range_succ])
    (by simp [mean_stddev, colList, matTwoZeros, List.range_succ])

/-! ## Race on the running maximum (run_edpl, shared max_edpl)

The statement max_edpl = std::max( max_edpl, edplv ) executes inside the
OpenMP parallel loop with no critical or atomic protection, so it is a non
atomic read followed by a write. The model splits the update of two
concurrent file reductions into a load of the shared maximum into a
register and a store of the max of register and own value. -/

/-- Actions of the two concurrent updates. -/
inductive RAct
  | load0
  | load1
  | store0
  | store1
deriving DecidableEq

/-- Shared maximum plus the per thread registers. -/
structure RaceState where
  shared : ℚ
  reg0 : Option ℚ
  reg1 : Option ℚ

/-- One step of the interleaved execution. -/
def raceStep (v0 v1 : ℚ) (st : RaceState) : RAct → RaceState
  | RAct.load0 => { st with reg0 := some st.shared }
  | RAct.load1 => { st with reg1 := some st.shared }
  | RAct.store0 => { st with shared := max (st.reg0.getD st.shared) v0 }
  | RAct.store1 => { st with shared := max (st.reg1.getD st.shared) v1 }

/-- Final shared maximum after running a schedule from an initial shared
value of zero. -/
def raceRun (v0 v1 : ℚ) (sched : List RAct) : ℚ :=
  (sched.foldl (raceStep v0 v1) ⟨0, none, none⟩).shared

/-- A schedule is an interleaving of the two thread programs, each a load
followed by its store. -/
def validSched (sched : List RAct) : Prop :=
  sched.count RAct.load0 = 1 ∧ sched.count RAct.store0 = 1
    ∧ sched.count RAct.load1 = 1 ∧ sched.count RAct.store1 = 1
    ∧ sched.indexOf RAct.load0 < sched.indexOf RAct.store0
    ∧ sched.indexOf RAct.load1 < sched.indexOf RAct.store1

/-- C9 divergence: a valid interleaving of the unsynchronized updates with
EDPL values 2 and 1 ends with the shared maximum 1, losing the true
maximum 2, so the update is not race free as the claim states. -/
theorem c9_race_lost_update :
    validSched [RAct.load0, RAct.load1, RAct.store0, RAct.store1]
    ∧ raceRun 2 1 [RAct.load0, RAct.load1, RAct.store0, RAct.store1] = 1
    ∧ max (2:ℚ) 1 = 2 ∧ (1:ℚ) ≠ 2 := by
  refine ⟨by unfold validSched; decide, ?_, by norm_num, by norm_num⟩
  show (raceStep 2 1 (raceStep 2 1 (raceStep 2 1 (raceStep 2 1 ⟨0, none, none⟩
    RAct.load0) RAct.load1) RAct.store0) RAct.store1).shared = 1
  norm_num [raceStep]
